import Mathlib

/-!
Verification of anydesk-tracking: event gating, deduplication, debounce and tree diff.

A shallow embedding of the Go sources `monitor.go`, `usertracker.go` and
`filewatch.go`, followed by the properties established about them.

Conventions of the embedding:

* instants (`time.Time`) and durations (`time.Duration`) are integers counting
  nanoseconds; `time.Duration` is an `int64`, so `Sub` saturates and negation
  wraps, exactly as the Go runtime does;
* every clock reading (`time.Now()`) is an explicit argument;
* package-level variables (`notificationCache`, `lastAnydeskUser`,
  `lastFileHash`, ...) are explicit state that each function takes and returns;
* `SendSlack(msg)` appends `msg` to the list of dispatched messages;
* library functions the sources only call (`sha256`, `Format(time.RFC3339)`,
  `yaml.Unmarshal`) are parameters, collected in `Lib`.
-/

namespace AnydeskTracking

/-! ## Time arithmetic (package `time`) -/

/-! An instant (`time.Time`) is an `Int`: nanoseconds on the clock that produced it.
A `time.Duration` is an `Int` too: a signed nanosecond count, which the code holds in
an `int64`. -/

def Millisecond : Int := 1000000

def Second : Int := 1000 * Millisecond

def Minute : Int := 60 * Second

def Hour : Int := 60 * Minute

/-- The smallest `int64`, `-1 << 63`. -/
def minDuration : Int := -9223372036854775808

/-- The largest `int64`, `1<<63 - 1`. -/
def maxDuration : Int := 9223372036854775807

/-- `t.Sub(u)`: the duration `t - u`; when it does not fit a `Duration` the
minimum or maximum duration is returned instead. -/
def Sub (t u : Int) : Int :=
  if t - u < minDuration then minDuration
  else if maxDuration < t - u then maxDuration
  else t - u

/-- Reduction of an integer to the `int64` it wraps to. -/
def wrap64 (x : Int) : Int := (x + 9223372036854775808) % 18446744073709551616 - 9223372036854775808

/-! ## Configuration (`config.go`) -/

structure AppConfig where
  WebhookURL : String
  VMName : String
  UserTraceFile : String
  ServiceTraceFile : String
  AppLogFile : String
  ExternalFile : String
  AllowedRecentDuration : Int
  LogTimeLayout : String

def DefaultAllowedRecentDuration : Int := 5 * Second

/-- The package variable `Config` with its default values. -/
def Config : AppConfig where
  WebhookURL := ""
  VMName := ""
  UserTraceFile := "C:\\Users\\This\\AppData\\Roaming\\AnyDesk\\ad.trace"
  ServiceTraceFile := "C:\\ProgramData\\AnyDesk\\ad_svc.trace"
  AppLogFile := "AnyDeskGoTracker.log"
  ExternalFile := "C:\\User\\user.yml"
  AllowedRecentDuration := DefaultAllowedRecentDuration
  LogTimeLayout := "2006-01-02 15:04:05.000"

/-! ## Recency gate (`monitor.go`, `isRecent`) -/

/-- `isRecent(t)` evaluated when `time.Now().UTC()` reads `now`:
`diff := now.Sub(t); if diff < 0 { diff = -diff }; return diff <= Config.AllowedRecentDuration`. -/
def isRecent (cfg : AppConfig) (now t : Int) : Bool :=
  let diff := Sub now t
  let diff := if diff < 0 then wrap64 (-diff) else diff
  decide (diff ≤ cfg.AllowedRecentDuration)

/-! ## Deduplication cache (`monitor.go`, critical section of `HandleLogin`) -/

/-- The map `notificationCache`: event hash to the instant it was last notified. -/
abbrev Cache := String → Option Int

def emptyCache : Cache := fun _ => none

def deduplicationWindow : Int := 30 * Second

/-- The loop `for hash, notifTime := range notificationCache` that deletes every
entry with `now.Sub(notifTime) > deduplicationWindow`. -/
def sweep (cache : Cache) (now : Int) : Cache := fun hash =>
  match cache hash with
  | some notifTime => if deduplicationWindow < Sub now notifTime then none else some notifTime
  | none => none

/-- The section of `HandleLogin` between `notificationCacheMutex.Lock()` and the last
`Unlock()`: the entry of `eventHash` is read first, the cache is swept, and then either
the event is suppressed (`false`) or `now` is recorded against `eventHash` (`true`). -/
def shouldNotify (cache : Cache) (eventHash : String) (now : Int) : Bool × Cache :=
  let swept := sweep cache now
  match cache eventHash with
  | some lastNotified =>
    if Sub now lastNotified < deduplicationWindow then (false, swept)
    else (true, Function.update swept eventHash (some now))
  | none => (true, Function.update swept eventHash (some now))

/-- A run of deduplication checks, each with its own event hash and clock reading. -/
def runChecks (cache : Cache) : List (String × Int) → Cache
  | [] => cache
  | (eventHash, now) :: rest => runChecks (shouldNotify cache eventHash now).2 rest

/-! ## Tree diff (`filewatch.go`, `generateDiff` and `findDifferences`) -/

mutual
/-- A value of a parsed document (`interface{}` as `yaml.Unmarshal` fills it). The code
asks two things of a value: whether it is a `map[string]interface{}`, and what
`fmt.Sprintf("%v", v)` prints for it. Every value that is not such a map is therefore
carried as `scalar`, by the text `%v` prints. -/
inductive Value where
  | scalar (rendered : String)
  | map (entries : Doc)
/-- A `map[string]interface{}`, as a list of entries. The value of a key is that of its
first entry; later entries of the same key are ignored throughout. -/
inductive Doc where
  | nil
  | cons (key : String) (val : Value) (rest : Doc)
end

/-- `oldData[key]` with its presence flag. -/
def Doc.lookup (key : String) : Doc → Option Value
  | .nil => none
  | .cons k v rest => if key = k then some v else rest.lookup key

def Doc.keys : Doc → List String
  | .nil => []
  | .cons k _ rest => k :: rest.keys

/-- Lexicographic order on code point sequences. -/
def lexLt : List Nat → List Nat → Bool
  | [], [] => false
  | [], _ :: _ => true
  | _ :: _, [] => false
  | a :: as, b :: bs => a < b || (a == b && lexLt as bs)

/-- Go's `<` on strings (byte order of UTF-8, which is code point order). -/
def stringLess (a b : String) : Bool :=
  lexLt (a.data.map Char.toNat) (b.data.map Char.toNat)

def insertByKey {α : Type} (x : String × α) : List (String × α) → List (String × α)
  | [] => [x]
  | y :: ys => if stringLess y.1 x.1 then y :: insertByKey x ys else x :: y :: ys

/-- Entries in increasing key order. -/
def sortByKey {α : Type} (l : List (String × α)) : List (String × α) :=
  l.foldr insertByKey []

/-- `sort.Strings`. -/
def sortStrings (l : List String) : List String :=
  (sortByKey (l.map fun s => (s, ()))).map Prod.fst

mutual
/-- `fmt.Sprintf("%v", v)`: a map prints as `map[k1:v1 k2:v2]`, keys in increasing order. -/
def Value.render : Value → String
  | .scalar rendered => rendered
  | .map entries =>
    "map[" ++ " ".intercalate ((sortByKey entries.renderEntries).map fun e => e.1 ++ ":" ++ e.2) ++ "]"
/-- Each key of the map with what `%v` prints for its value. -/
def Doc.renderEntries : Doc → List (String × String)
  | .nil => []
  | .cons k v rest => (k, v.render) :: rest.renderEntries.filter fun e => e.1 ≠ k
end

mutual
/-- Nesting depth of maps inside a value. -/
def Value.depth : Value → Nat
  | .scalar _ => 0
  | .map entries => entries.depth + 1
def Doc.depth : Doc → Nat
  | .nil => 0
  | .cons _ v rest => max v.depth rest.depth
end

/-- The map `changes`: parent path to the lines emitted under it. A path is present
exactly when a line has been appended for it. -/
abbrev Changes := List (String × List String)

/-- The value of `changes[parent]` (`nil` when absent). -/
def group : Changes → String → List String
  | [], _ => []
  | (p, lines) :: rest, parent => if p = parent then lines else group rest parent

/-- The assignment `changes[parent] = append(changes[parent], line)`. -/
def appendLine : Changes → String → String → Changes
  | [], parent, line => [(parent, [line])]
  | (p, lines) :: rest, parent, line =>
    if p = parent then (p, lines ++ [line]) :: rest else (p, lines) :: appendLine rest parent line

/-- The keys of the set `allKeys`, each once. -/
def allKeys (oldData newData : Doc) : List String :=
  (oldData.keys ++ newData.keys).dedup

/-- The order in which `for key := range allKeys` visits the keys. Go leaves the
iteration order of a map unspecified, so it is an input: for the loop running under
parent path `parentKey` over the key set `keys`, `visit parentKey keys` lists
the keys in the order they are visited. -/
structure KeyOrder where
  visit : String → List String → List String
  perm : ∀ parentKey keys, (visit parentKey keys).Perm keys

/-- Keys visited in the order they are listed. -/
def listedOrder : KeyOrder := ⟨fun _ keys => keys, fun _ _ => List.Perm.refl _⟩

/-- Keys visited in the opposite order. -/
def reverseOrder : KeyOrder := ⟨fun _ keys => keys.reverse, fun _ keys => List.reverse_perm keys⟩

/-- The path of the recursive call: `key`, or `parentKey + "." + key` when
`parentKey != ""`. -/
def newParent (parentKey key : String) : String :=
  if parentKey ≠ "" then parentKey ++ "." ++ key else key

/-- `fmt.Sprintf("- %s: %v\n", key, oldVal)`. -/
def removedLine (key : String) (oldVal : Value) : String :=
  "- " ++ key ++ ": " ++ oldVal.render ++ "\n"

/-- `fmt.Sprintf("+ %s: %v\n", key, newVal)`. -/
def addedLine (key : String) (newVal : Value) : String :=
  "+ " ++ key ++ ": " ++ newVal.render ++ "\n"

/-- One iteration of the loop `for key := range allKeys` of `findDifferences`;
`recurse` is the recursive call. -/
def visitKey (recurse : Changes → String → Doc → Doc → Changes) (parentKey : String)
    (oldData newData : Doc) (changes : Changes) (key : String) : Changes :=
  match oldData.lookup key, newData.lookup key with
  | some oldVal, some newVal =>
    match oldVal, newVal with
    | .map oldMap, .map newMap => recurse changes (newParent parentKey key) oldMap newMap
    | _, _ =>
      if oldVal.render ≠ newVal.render then
        appendLine (appendLine changes parentKey (removedLine key oldVal)) parentKey
          (addedLine key newVal)
      else changes
  | some oldVal, none => appendLine changes parentKey (removedLine key oldVal)
  | none, some newVal => appendLine changes parentKey (addedLine key newVal)
  | none, none => changes

/-- `findDifferences(changes, parentKey, oldData, newData)`, returning the updated
`changes`. The first argument bounds the depth of recursive calls; a call on `oldData`
needs more than `oldData.depth`. -/
def findDifferences (ord : KeyOrder) : Nat → Changes → String → Doc → Doc → Changes
  | 0, changes, _, _, _ => changes
  | fuel + 1, changes, parentKey, oldData, newData =>
    (ord.visit parentKey (allKeys oldData newData)).foldl
      (visitKey (findDifferences ord fuel) parentKey oldData newData) changes

/-- The map `changes` of `generateDiff` after `findDifferences(changes, "", oldData, newData)`. -/
def diffGroups (ord : KeyOrder) (oldData newData : Doc) : Changes :=
  findDifferences ord (oldData.depth + 1) [] "" oldData newData

/-- The content of a `strings.Builder` after `WriteString` of each text in turn. -/
def writeAll : List String → String
  | [] => ""
  | text :: rest => text ++ writeAll rest

/-- What `generateDiff` writes for one parent: the header `parent + ":\n"` unless
`parent` is empty, then the lines of its group. -/
def renderGroup (changes : Changes) (parent : String) : String :=
  (if parent ≠ "" then parent ++ ":\n" else "") ++ writeAll (group changes parent)

/-- The second half of `generateDiff`: the parents of `changes` sorted, each rendered. -/
def renderChanges (changes : Changes) : String :=
  writeAll ((sortStrings (changes.map Prod.fst)).map (renderGroup changes))

/-- The map reached from `d` by following the keys `ks` through nested maps. -/
def Doc.descend : Doc → List String → Option Doc
  | d, [] => some d
  | d, k :: ks =>
    match d.lookup k with
    | some (.map entries) => entries.descend ks
    | _ => none

/-- The text `generateDiff` returns once both documents have been parsed. -/
def diffText (ord : KeyOrder) (oldData newData : Doc) : String :=
  renderChanges (diffGroups ord oldData newData)

/-! ## Library functions the sources call -/

/-- The library functions whose result the sources use as text. -/
structure Lib where
  /-- `fmt.Sprintf("%x", sum)` of the SHA-256 sum of a byte string. -/
  sha256Hex : String → String
  /-- A SHA-256 sum is 32 bytes, printed as 64 hexadecimal digits. -/
  sha256Hex_length : ∀ bytes, (sha256Hex bytes).length = 64
  /-- The method `Format(time.RFC3339)` of an instant. -/
  formatRFC3339 : Int → String
  /-- `yaml.Unmarshal` into a `map[string]interface{}`: the parsed map, or the error text. -/
  yamlUnmarshal : String → Except String Doc

/-- The float64 computations of `formatDuration`, truncated by `int(...)`. -/
structure Truncations where
  /-- `int(d.Minutes())`. -/
  minutes : Int → Int
  /-- `int(d.Hours())`. -/
  hours : Int → Int
  /-- `int(d.Hours()/24)`. -/
  days : Int → Int

/-- A stand-in for the truncations, by integer quotient. It is not Go's float64
computation in general: at 200 days less 1ns `d.Hours()` rounds up to 4800 and Go prints
200 days, where the quotient is 199. It is used below only at 25 hours, where float64
gives `25.0/24 = 1.04...`, truncated to `1`, like the quotient. -/
def quotientTruncations : Truncations where
  minutes := fun d => d / Minute
  hours := fun d => d / Hour
  days := fun d => d / (24 * Hour)

/-! ## User attribution store (`usertracker.go`) -/

/-- The package variables `lastAnydeskUser` and `lastAnydeskUserTime`. -/
structure UserStore where
  lastAnydeskUser : String
  lastAnydeskUserTime : Int

/-- The store before any login (Go zero values; the zero instant is immaterial while
the name is empty). -/
def initialUserStore : UserStore := ⟨"", 0⟩

/-- `SetLastAnydeskUser(userName)` when `time.Now()` reads `now`. The call to
`saveUserState` writes the two fields to a file and assigns no variable. -/
def SetLastAnydeskUser (_store : UserStore) (userName : String) (now : Int) : UserStore :=
  ⟨userName, now⟩

def formatDuration (fl : Truncations) (d : Int) : String :=
  if d < Minute then "just now"
  else if d < Hour then toString (fl.minutes d) ++ " minutes"
  else if d < 24 * Hour then toString (fl.hours d) ++ " hours"
  else toString (fl.days d) ++ " days"

/-- `GetLastAnydeskUser()` when `time.Since` reads the clock at `now`. -/
def GetLastAnydeskUser (fl : Truncations) (store : UserStore) (now : Int) : String :=
  if store.lastAnydeskUser = "" then "Unknown (no recent login)"
  else
    let timeSince := Sub now store.lastAnydeskUserTime
    if 24 * Hour < timeSince then
      store.lastAnydeskUser ++ " (last seen " ++ formatDuration fl timeSince ++ " ago)"
    else store.lastAnydeskUser

/-! ## Login events (`monitor.go`, `reLogin` and `HandleLogin`) -/

/-- `([^)]+)\)` at the head of `s`: the class is greedy and cannot pass a `)`, so it
takes every character up to the first `)`, and must take at least one. -/
def matchID (s : List Char) : Option (List Char) :=
  let id := s.takeWhile fun c => c ≠ ')'
  if id ≠ [] ∧ (s.drop id.length).head? = some ')' then some id else none

/-- The tail of the pattern after the name group at the head of `s`: a blank, `(`,
the identifier group and `)`. -/
def matchTail : List Char → Option (List Char)
  | ' ' :: '(' :: rest => matchID rest
  | _ => none

/-- `(.+?)` followed by the tail at the head of `s`, with `name` (reversed) already
taken by the group: the group is lazy, so the match ends at the first place where it
is not empty and the tail matches; `.` takes any character but a line feed. -/
def matchName : List Char → List Char → Option (List Char × List Char)
  | _, [] => none
  | name, c :: rest =>
    match (if name = [] then none else matchTail (c :: rest)) with
    | some id => some (name.reverse, id)
    | none => if c = '\n' then none else matchName (c :: name) rest

/-- The leftmost match of the pattern in `s`. -/
def findLogin : List Char → Option (List Char × List Char)
  | [] => none
  | c :: rest =>
    let literal := "Incoming session request: ".data
    match (if literal.isPrefixOf (c :: rest) then matchName [] ((c :: rest).drop literal.length)
      else none) with
    | some groups => some groups
    | none => findLogin rest

/-- `reLogin.FindStringSubmatch(line)` for
`Incoming session request: (.+?) \(([^)]+)\)`: the two groups, when the line matches. -/
def reLogin (line : String) : Option (String × String) :=
  (findLogin line.data).map fun groups => (String.mk groups.1, String.mk groups.2)

/-- The package variables `HandleLogin` reads and assigns, with the messages passed
to `SendSlack` so far. -/
structure Monitor where
  user : UserStore
  notificationCache : Cache
  sent : List String

def initialMonitor : Monitor := ⟨initialUserStore, emptyCache, []⟩

/-- `HandleLogin(line, logTime, label)`. The three calls of `time.Now()` made on the
way, in `SetLastAnydeskUser`, in `isRecent` and inside the critical section, read
`nowUser`, `nowRecent` and `nowCache`. -/
def HandleLogin (lib : Lib) (cfg : AppConfig) (m : Monitor) (line : String) (logTime : Int)
    (label : String) (nowUser nowRecent nowCache : Int) : Monitor :=
  match reLogin line with
  | none => m
  | some (userName, userID) =>
    let user := SetLastAnydeskUser m.user userName nowUser
    if isRecent cfg nowRecent logTime then
      let eventKey := userName ++ "|" ++ userID ++ "|" ++ lib.formatRFC3339 logTime
      let eventHash := lib.sha256Hex eventKey
      let checked := shouldNotify m.notificationCache eventHash nowCache
      if checked.1 then
        let msg := ":rotating-light-red: *" ++ cfg.VMName ++
          "* AnyDesk session request detected\nUser: " ++ userName ++ "\nID: " ++ userID ++
          "\nTime: " ++ lib.formatRFC3339 logTime ++ " (GMT)\nSource: " ++ label
        ⟨user, checked.2, m.sent ++ [msg]⟩
      else ⟨user, checked.2, m.sent⟩
    else ⟨user, m.notificationCache, m.sent⟩

/-! ## File watcher (`filewatch.go`) -/

/-- `generateDiff(oldContent, newContent)`. -/
def generateDiff (lib : Lib) (ord : KeyOrder) (oldContent newContent : String) : String :=
  match lib.yamlUnmarshal oldContent with
  | .error err => "error unmarshalling old YAML: " ++ err
  | .ok oldData =>
    match lib.yamlUnmarshal newContent with
    | .error err => "error unmarshalling new YAML: " ++ err
    | .ok newData => diffText ord oldData newData

/-- The package variables `lastFileHash` and `lastFileContent`. -/
structure FileSnapshot where
  lastFileHash : String
  lastFileContent : String

/-- `getFileHash(filePath)`, given what opening and reading the file returns: the
bytes, or nothing on error. -/
def getFileHash (lib : Lib) (read : Option String) : Option String :=
  read.map lib.sha256Hex

/-- The assignments `StartFileWatcher` makes before it starts the loop, from the two
reads of the file it makes (for the hash, then for the content), paired with whether
the loop is started: `fsnotify.NewWatcher()` and `watcher.Add(filePath)` both
succeeded. -/
def StartFileWatcher (lib : Lib) (newWatcherOk : Bool) (hashRead contentRead : Option String)
    (addOk : Bool) : FileSnapshot × Bool :=
  if newWatcherOk then
    (⟨(getFileHash lib hashRead).getD "", contentRead.getD ""⟩, addOk)
  else (⟨"", ""⟩, false)

/-- What one call of `handleFileChange` is given from outside: the two reads of the
file it makes (for the hash, then for the content), the user store and the clock
readings of `GetLastAnydeskUser()` and of the message. -/
structure Evaluation where
  hashRead : Option String
  contentRead : Option String
  users : UserStore
  nowUser : Int
  nowMessage : Int

/-- `handleFileChange(filePath)`: the stored snapshot afterwards and the messages
passed to `SendSlack`. -/
def handleFileChange (lib : Lib) (fl : Truncations) (ord : KeyOrder) (cfg : AppConfig)
    (filePath : String) (snap : FileSnapshot) (ev : Evaluation) : FileSnapshot × List String :=
  match getFileHash lib ev.hashRead with
  | none => (snap, [])
  | some newHash =>
    if newHash = snap.lastFileHash then (snap, [])
    else
      match ev.contentRead with
      | none => (snap, [])
      | some newContent =>
        let diff := generateDiff lib ord snap.lastFileContent newContent
        let user := GetLastAnydeskUser fl ev.users ev.nowUser
        let user := if user = "" then "Unknown (no recent login)" else user
        let msg := ":warning: *Configuration File Changed on " ++ cfg.VMName ++ "*\nFile: `" ++
          filePath ++ "`\nModified by: " ++ user ++ "\nTime: " ++
          lib.formatRFC3339 ev.nowMessage ++ " (GMT)\n\n*Changes:*\n```\n" ++ diff ++ "\n```"
        (⟨newHash, newContent⟩, [msg])

/-- The snapshots the watcher can hold: the one `StartFileWatcher` leaves when it
starts the loop, and the one left by each later call of `handleFileChange`. -/
inductive Reachable (lib : Lib) (fl : Truncations) (ord : KeyOrder) (cfg : AppConfig)
    (filePath : String) : FileSnapshot → Prop
  | start (hashRead contentRead : Option String) :
    Reachable lib fl ord cfg filePath (StartFileWatcher lib true hashRead contentRead true).1
  | evaluate (snap : FileSnapshot) (ev : Evaluation) :
    Reachable lib fl ord cfg filePath snap →
    Reachable lib fl ord cfg filePath (handleFileChange lib fl ord cfg filePath snap ev).1

/-- The snapshots the watcher can hold when no read fails at startup and no two reads
of one call disagree: `StartFileWatcher` read the same bytes twice, and no later call
of `handleFileChange` read one content for the hash and another for the diff. -/
inductive Settled (lib : Lib) (fl : Truncations) (ord : KeyOrder) (cfg : AppConfig)
    (filePath : String) : FileSnapshot → Prop
  | start (bytes : String) :
    Settled lib fl ord cfg filePath (StartFileWatcher lib true (some bytes) (some bytes) true).1
  | evaluate (snap : FileSnapshot) (ev : Evaluation) :
    Settled lib fl ord cfg filePath snap →
    (∀ b c, ev.hashRead = some b → ev.contentRead = some c → b = c) →
    Settled lib fl ord cfg filePath (handleFileChange lib fl ord cfg filePath snap ev).1

/-! ## Debounce loop (`filewatch.go`, the goroutine of `StartFileWatcher`) -/

/-- The bits of `fsnotify.Op`. -/
def fsnotifyCreate : Nat := 1

def fsnotifyWrite : Nat := 2

/-- A value received from `watcher.Events` at instant `arrival`. When `debounceTimer` is due
at that same instant both cases of the `select` are ready and either may run;
`timerFirst` says whether the timer case does. -/
structure Notification where
  arrival : Int
  op : Nat
  timerFirst : Bool

def debounce : Int := 500 * Millisecond

/-- The loop's state: the instant `debounceTimer` is due, when it is running, and the
instants at which `handleFileChange` has been called, oldest first. -/
structure Loop where
  timer : Option Int
  evaluated : List Int

/-- The loop as it starts: `time.NewTimer(0)` stopped at once. -/
def initialLoop : Loop := ⟨none, []⟩

/-- The case `<-debounceTimer.C`, taken when the timer is due while the loop waits:
every due instant before `now` (or at `now`, when `inclusive`). -/
def expire (l : Loop) (now : Int) (inclusive : Bool) : Loop :=
  match l.timer with
  | some due =>
    if due < now ∨ (due = now ∧ inclusive = true) then ⟨none, l.evaluated ++ [due]⟩ else l
  | none => l

/-- The case `event, ok := <-watcher.Events`: a write or create (re)starts the timer. -/
def onEvent (l : Loop) (n : Notification) : Loop :=
  if n.op &&& fsnotifyWrite = fsnotifyWrite ∨ n.op &&& fsnotifyCreate = fsnotifyCreate then
    ⟨some (n.arrival + debounce), l.evaluated⟩
  else l

/-- The loop run over the notifications it receives, in order of arrival. -/
def runLoop (l : Loop) : List Notification → Loop
  | [] => l
  | n :: rest => runLoop (onEvent (expire l n.arrival n.timerFirst) n) rest

/-- The instants at which `handleFileChange` has been called by instant `now`, for a
loop that has received `ns` and nothing since. -/
def evaluationsBy (ns : List Notification) (now : Int) : List Int :=
  (expire (runLoop initialLoop ns) now true).evaluated

/-! ## Auxiliary definitions for the statements below -/

/-- A stand-in for the library functions, for use at concrete inputs: the digest is
the first 64 characters of the input padded with `0`, instants are not printed, and
every document parses to the empty map. -/
def sampleLib : Lib where
  sha256Hex := fun bytes => String.mk ((bytes.data ++ List.replicate 64 '0').take 64)
  sha256Hex_length := by
    intro bytes
    show ((bytes.data ++ List.replicate 64 '0').take 64).length = 64
    rw [List.length_take, List.length_append, List.length_replicate]
    omega
  formatRFC3339 := fun _ => ""
  yamlUnmarshal := fun _ => .ok .nil

/-- Every group of `later` starts with the lines the group has in `earlier`. -/
def Grows (earlier later : Changes) : Prop :=
  ∀ q, group earlier q <+: group later q

/-- Both values are present and are not both maps: the case `findDifferences` reports
as a flat replacement when the two print differently. -/
def NotBothMaps (oldVal newVal : Value) : Prop :=
  ∀ oldMap newMap, ¬ (oldVal = .map oldMap ∧ newVal = .map newMap)

/-- The document `a: 1`, `b: 2`. -/
def docA1B2 : Doc := .cons "a" (.scalar "1") (.cons "b" (.scalar "2") .nil)

/-- The document `a: 1`, `b: 3`. -/
def docA1B3 : Doc := .cons "a" (.scalar "1") (.cons "b" (.scalar "3") .nil)

/-- The document `a: 2`, `b: 3`. -/
def docA2B3 : Doc := .cons "a" (.scalar "2") (.cons "b" (.scalar "3") .nil)

/-- The document `x: "map[y:1]"`: the value is the string `map[y:1]`. -/
def docXText : Doc := .cons "x" (.scalar "map[y:1]") .nil

/-- The document `x: {y: 1}`. -/
def docXMapY1 : Doc := .cons "x" (.map (.cons "y" (.scalar "1") .nil)) .nil

/-- The document `x: 1`. -/
def docX1 : Doc := .cons "x" (.scalar "1") .nil

/-- The document `"": {a: {y: 1}}`, whose top-level key is the empty string. -/
def docEmptyKeyY1 : Doc :=
  .cons "" (.map (.cons "a" (.map (.cons "y" (.scalar "1") .nil)) .nil)) .nil

/-- The document `"": {a: {y: 2}}`. -/
def docEmptyKeyY2 : Doc :=
  .cons "" (.map (.cons "a" (.map (.cons "y" (.scalar "2") .nil)) .nil)) .nil

/-- The document `x: {"": {a: {y: 1}}}`: the empty key one level down. -/
def docInnerEmptyKeyY1 : Doc := .cons "x" (.map docEmptyKeyY1) .nil

/-- The document `x: {"": {a: {y: 2}}}`. -/
def docInnerEmptyKeyY2 : Doc := .cons "x" (.map docEmptyKeyY2) .nil

/-- The document `x: {y: 2}`. -/
def docXMapY2 : Doc := .cons "x" (.map (.cons "y" (.scalar "2") .nil)) .nil

/-! ## Properties of the time arithmetic -/

theorem deduplicationWindow_eq : deduplicationWindow = 30000000000 := by decide

theorem Sub_self (t : Int) : Sub t t = 0 := by
  simp [Sub, minDuration, maxDuration]

theorem Sub_le_of_le {s u : Int} {w : Int} (hw : minDuration ≤ w) (h : s - u ≤ w) :
    Sub s u ≤ w := by
  unfold Sub
  unfold minDuration maxDuration at *
  split_ifs <;> omega

theorem le_of_Sub_le {s u : Int} {w : Int} (hw : w < maxDuration) (h : Sub s u ≤ w) :
    s - u ≤ w := by
  unfold Sub at h
  unfold minDuration maxDuration at *
  split_ifs at h <;> omega

/-- Within the range of a `Duration` the gate is symmetric: a timestamp `d` after `now`
and one `d` before it are judged alike, for every offset whose size fits an `int64`. -/
theorem isRecent_symmetric_in_range (cfg : AppConfig) (now : Int) (d : Int)
    (hlo : -maxDuration ≤ d) (hhi : d ≤ maxDuration) :
    isRecent cfg (now) (now + d) = isRecent cfg now (now - d) := by
  have h1 : Sub now (now + d) = -d := by
    unfold Sub
    unfold minDuration maxDuration at *
    split_ifs <;> omega
  have h2 : Sub now (now - d) = d := by
    unfold Sub
    unfold minDuration maxDuration at *
    split_ifs <;> omega
  unfold isRecent
  rw [h1, h2]
  unfold maxDuration at *
  by_cases hd : d < 0
  · have hneg : ¬ (-d < 0) := by omega
    have hw : wrap64 (-d) = -d := by unfold wrap64; omega
    simp only [hneg, hd, if_true, if_false, hw]
  · by_cases hz : -d < 0
    · have hw : wrap64 (- -d) = d := by unfold wrap64; omega
      simp only [hz, hd, if_true, if_false, hw]
    · have : d = 0 := by omega
      subst this
      simp

/-- C2. The recency gate is not symmetric. With the clock at 2026-11-04T00:00:00Z and
the default threshold of 5s, offsets of 3s pass and offsets of 6s fail in both
directions, but a timestamp 9467020800s (about 300 years) after the clock reading is
judged recent, and the timestamp as far before it is not: `now.Sub(t)` saturates at the
minimum duration, whose negation wraps back to itself and is below every threshold. -/
theorem isRecent_far_future_judged_recent :
    isRecent Config 1793750400000000000 (1793750400000000000 + 3 * Second) = true ∧
    isRecent Config 1793750400000000000 (1793750400000000000 - 3 * Second) = true ∧
    isRecent Config 1793750400000000000 (1793750400000000000 + 6 * Second) = false ∧
    isRecent Config 1793750400000000000 (1793750400000000000 - 6 * Second) = false ∧
    isRecent Config 1793750400000000000 (1793750400000000000 + 9467020800000000000) = true ∧
    isRecent Config 1793750400000000000 (1793750400000000000 - 9467020800000000000) = false ∧
    Sub 1793750400000000000 (1793750400000000000 + 9467020800000000000) = minDuration ∧
    wrap64 (-minDuration) = minDuration := by
  decide

/-! ## Properties of the deduplication cache -/

theorem shouldNotify_keeps_entry (cache : Cache) (key other : String) (recorded now : Int)
    (hkey : cache key = some recorded) (hother : other ≠ key)
    (hlive : now - recorded < deduplicationWindow) :
    (shouldNotify cache other now).2 key = some recorded := by
  have hsub : ¬ deduplicationWindow < Sub now recorded := by
    have := Sub_le_of_le (s := now) (u := recorded) (w := deduplicationWindow)
      (by decide) (le_of_lt hlive)
    omega
  have hswept : sweep cache now key = some recorded := by
    simp [sweep, hkey, hsub]
  have hne : key ≠ other := fun h => hother h.symm
  unfold shouldNotify
  cases hc : cache other with
  | none => simp [Function.update_noteq hne, hswept]
  | some lastNotified =>
    by_cases hlt : Sub now lastNotified < deduplicationWindow
    · simp [hlt, hswept]
    · simp [hlt, Function.update_noteq hne, hswept]

theorem shouldNotify_suppresses (cache : Cache) (key : String) (now lastNotified : Int)
    (hkey : cache key = some lastNotified) (hlive : Sub now lastNotified < deduplicationWindow) :
    (shouldNotify cache key now).1 = false := by
  unfold shouldNotify
  simp only [hkey, hlive, if_true]

theorem runChecks_keeps_entry (key : String) (recorded bound : Int)
    (hbound : bound - recorded < deduplicationWindow) (others : List (String × Int)) :
    ∀ cache : Cache, cache key = some recorded →
      (∀ e ∈ others, e.1 ≠ key ∧ e.2 ≤ bound) →
      runChecks cache others key = some recorded := by
  induction others with
  | nil => intro cache hkey _; simpa [runChecks] using hkey
  | cons e rest ih =>
    intro cache hkey hall
    obtain ⟨k, t⟩ := e
    have he := hall (k, t) (List.mem_cons_self _ _)
    simp only [runChecks]
    apply ih
    · exact shouldNotify_keeps_entry cache key k recorded t hkey he.1 (by have := he.2; omega)
    · intro e' he'
      exact hall e' (List.mem_cons_of_mem _ he')

/-- C1. For a key with no live entry in the cache (none at all, or one recorded a full
window or more before `t1`), a check at `t1` passes and records `t1`; after any checks of
other keys made no later than `t2`, a check of the key at `t2`, with `t1 ≤ t2` and
`t2 - t1` below the 30s window, is suppressed. Exactly one of the two checks passes. -/
theorem shouldNotify_exactly_one_within_window (cache : Cache) (key : String) (t1 t2 : Int)
    (others : List (String × Int))
    (hfresh : ∀ t0, cache key = some t0 → ¬ Sub t1 t0 < deduplicationWindow)
    (horder : t1 ≤ t2) (hwindow : t2 - t1 < deduplicationWindow)
    (hothers : ∀ e ∈ others, e.1 ≠ key ∧ e.2 ≤ t2) :
    (shouldNotify cache key t1).1 = true ∧
    (shouldNotify cache key t1).2 key = some t1 ∧
    (shouldNotify (runChecks (shouldNotify cache key t1).2 others) key t2).1 = false := by
  have hfirst : (shouldNotify cache key t1).1 = true ∧
      (shouldNotify cache key t1).2 key = some t1 := by
    unfold shouldNotify
    cases hc : cache key with
    | none => simp
    | some t0 => simp [hfresh t0 hc]
  refine ⟨hfirst.1, hfirst.2, ?_⟩
  have hkept := runChecks_keeps_entry key t1 t2 hwindow others _ hfirst.2 hothers
  have hsub : Sub t2 t1 < deduplicationWindow := by
    have := Sub_le_of_le (s := t2) (u := t1) (w := t2 - t1)
      (by unfold minDuration; omega) (le_refl _)
    omega
  exact shouldNotify_suppresses _ key t2 t1 hkept hsub

/-- The first check of `login` passes although the cache holds a stale entry for it,
a check of another key follows, and the second check 29s later is suppressed. -/
theorem shouldNotify_exactly_one_within_window_witness :
    (shouldNotify (Function.update emptyCache "login" (some 0)) "login" (40 * Second)).1 = true ∧
    (shouldNotify (Function.update emptyCache "login" (some 0)) "login" (40 * Second)).2 "login"
      = some (40 * Second) ∧
    (shouldNotify (runChecks
      (shouldNotify (Function.update emptyCache "login" (some 0)) "login" (40 * Second)).2
      [("other", 50 * Second)]) "login" (69 * Second)).1 = false :=
  shouldNotify_exactly_one_within_window (Function.update emptyCache "login" (some 0)) "login"
    (40 * Second) (69 * Second) [("other", 50 * Second)]
    (by
      intro t0 h
      have h0 : t0 = 0 := by
        simp [emptyCache] at h
        exact h.symm
      subst h0
      decide)
    (by decide) (by decide)
    (by
      intro e he
      simp only [List.mem_singleton] at he
      subst he
      exact ⟨by decide, by decide⟩)

/-- C8. After a deduplication check made at `now`, whether it passed or suppressed, no
entry of the cache was recorded more than the 30s window before `now`. -/
theorem shouldNotify_leaves_no_stale_entry (cache : Cache) (eventHash : String) (now : Int)
    (hash : String) (recorded : Int)
    (hentry : (shouldNotify cache eventHash now).2 hash = some recorded) :
    now - recorded ≤ deduplicationWindow := by
  have hswept : ∀ r, sweep cache now hash = some r → now - r ≤ deduplicationWindow := by
    intro r hr
    unfold sweep at hr
    cases hc : cache hash with
    | none => simp [hc] at hr
    | some notifTime =>
      simp only [hc] at hr
      by_cases hgt : deduplicationWindow < Sub now notifTime
      · simp [hgt] at hr
      · simp only [hgt, if_false, Option.some.injEq] at hr
        subst hr
        exact le_of_Sub_le (by decide) (not_lt.mp hgt)
  have hupdated : ∀ r, Function.update (sweep cache now) eventHash (some now) hash = some r →
      now - r ≤ deduplicationWindow := by
    intro r hr
    by_cases hh : hash = eventHash
    · subst hh
      simp only [Function.update_same, Option.some.injEq] at hr
      subst hr
      simp [deduplicationWindow_eq]
    · rw [Function.update_noteq hh] at hr
      exact hswept r hr
  unfold shouldNotify at hentry
  cases hc : cache eventHash with
  | none =>
    simp only [hc] at hentry
    exact hupdated _ hentry
  | some lastNotified =>
    simp only [hc] at hentry
    by_cases hlt : Sub now lastNotified < deduplicationWindow
    · simp only [hlt, if_true] at hentry
      exact hswept _ hentry
    · simp only [hlt, if_false] at hentry
      exact hupdated _ hentry

/-- A check at 100s sweeps the entry recorded at 10s and keeps the one recorded at 80s. -/
theorem shouldNotify_leaves_no_stale_entry_witness :
    (shouldNotify (Function.update (Function.update emptyCache "a" (some (10 * Second))) "b"
      (some (80 * Second))) "c" (100 * Second)).2 "a" = none ∧
    100 * Second - 80 * Second ≤ deduplicationWindow :=
  ⟨by decide,
    shouldNotify_leaves_no_stale_entry
      (Function.update (Function.update emptyCache "a" (some (10 * Second))) "b"
        (some (80 * Second))) "c" (100 * Second) "b" (80 * Second) (by decide)⟩

/-! ## Properties of the user attribution store -/

theorem days_suffix_ne (shown : String) :
    "alice" ++ " (last seen " ++ (shown ++ " days") ++ " ago)" ≠
      "alice (last seen ~25 hours ago)" := by
  intro h
  have h2 := congrArg (fun s : String => s.data.reverse.take 7) h
  simp at h2

/-- C4, as stated, fails. After `SetLastAnydeskUser("alice")` and 25 hours,
`GetLastAnydeskUser()` returns `alice (last seen 1 days ago)`; whatever the float
truncations return, it never returns `alice (last seen ~25 hours ago)`. -/
theorem GetLastAnydeskUser_after_25_hours_counts_days :
    GetLastAnydeskUser quotientTruncations (SetLastAnydeskUser initialUserStore "alice" 0)
      (0 + 25 * Hour) = "alice (last seen 1 days ago)" ∧
    ¬ ∃ fl : Truncations,
      GetLastAnydeskUser fl (SetLastAnydeskUser initialUserStore "alice" 0) (0 + 25 * Hour)
        = "alice (last seen ~25 hours ago)" := by
  refine ⟨by decide, ?_⟩
  rintro ⟨fl, h⟩
  have hage : (24 * Hour : Int) < Sub (0 + 25 * Hour) 0 := by decide
  have hfmt : formatDuration fl (Sub (0 + 25 * Hour) 0)
      = toString (fl.days (Sub (0 + 25 * Hour) 0)) ++ " days" := by
    have h1 : ¬ Sub (0 + 25 * Hour) 0 < Minute := by decide
    have h2 : ¬ Sub (0 + 25 * Hour) 0 < Hour := by decide
    have h3 : ¬ Sub (0 + 25 * Hour) 0 < 24 * Hour := by decide
    simp only [formatDuration, h1, h2, h3, if_false]
  have hname : ¬ ("alice" = "") := by decide
  simp only [GetLastAnydeskUser, SetLastAnydeskUser, hname, hage, if_true, if_false, hfmt] at h
  exact days_suffix_ne (toString (fl.days (Sub (0 + 25 * Hour) 0))) h

/-- C4, amended. For every non-empty name and every age above 24 hours (as
`time.Since` measures it), `GetLastAnydeskUser()` returns the name followed by
` (last seen N days ago)`, where `N` is `int(d.Hours()/24)`. -/
theorem GetLastAnydeskUser_older_than_a_day (fl : Truncations) (store : UserStore) (now : Int)
    (hname : store.lastAnydeskUser ≠ "")
    (hage : 24 * Hour < Sub now store.lastAnydeskUserTime) :
    GetLastAnydeskUser fl store now =
      store.lastAnydeskUser ++ " (last seen " ++
        (toString (fl.days (Sub now store.lastAnydeskUserTime)) ++ " days") ++ " ago)" := by
  have h1 : ¬ Sub now store.lastAnydeskUserTime < Minute := by
    unfold Hour Minute Second Millisecond at *
    omega
  have h2 : ¬ Sub now store.lastAnydeskUserTime < Hour := by
    unfold Hour Minute Second Millisecond at *
    omega
  have h3 : ¬ Sub now store.lastAnydeskUserTime < 24 * Hour := by omega
  simp only [GetLastAnydeskUser, hname, hage, if_true, if_false, formatDuration, h1, h2, h3]

/-- The store set to `alice` at instant 0 and read 25 hours later. -/
theorem GetLastAnydeskUser_older_than_a_day_witness :
    GetLastAnydeskUser quotientTruncations (SetLastAnydeskUser initialUserStore "alice" 0)
      (25 * Hour) =
      "alice" ++ " (last seen " ++
        (toString (quotientTruncations.days (Sub (25 * Hour) 0)) ++ " days") ++ " ago)" :=
  GetLastAnydeskUser_older_than_a_day quotientTruncations
    (SetLastAnydeskUser initialUserStore "alice" 0) (25 * Hour) (by decide) (by decide)

/-! ## Properties of `HandleLogin` -/

/-- C10. `HandleLogin` updates the user store before and regardless of the recency
gate and the deduplication check: for a line the login pattern matches, whatever the
log timestamp and the cache, the last known user afterwards is the name extracted and
its last-seen time is the clock reading of `SetLastAnydeskUser`; for a line the pattern
does not match, the store (and everything else) is left as it was. -/
theorem HandleLogin_updates_user_unconditionally (lib : Lib) (cfg : AppConfig) (m : Monitor)
    (line : String) (logTime : Int) (label : String) (nowUser nowRecent nowCache : Int) :
    (∀ userName userID, reLogin line = some (userName, userID) →
      (HandleLogin lib cfg m line logTime label nowUser nowRecent nowCache).user
        = ⟨userName, nowUser⟩) ∧
    (reLogin line = none →
      HandleLogin lib cfg m line logTime label nowUser nowRecent nowCache = m) := by
  constructor
  · intro userName userID hmatch
    unfold HandleLogin
    simp only [hmatch, SetLastAnydeskUser]
    split_ifs <;> rfl
  · intro hmatch
    unfold HandleLogin
    simp only [hmatch]

/-! ## Properties of the debounce loop -/

/-- C9. Three write notifications, each arriving less than 500ms after the previous
one: by any instant `now`, `handleFileChange` has been called exactly once if `now` is
at least 500ms after the third arrival, at that instant, and not at all otherwise. -/
theorem three_writes_one_evaluation (n1 n2 n3 : Notification) (now : Int)
    (hw1 : n1.op &&& fsnotifyWrite = fsnotifyWrite)
    (hw2 : n2.op &&& fsnotifyWrite = fsnotifyWrite)
    (hw3 : n3.op &&& fsnotifyWrite = fsnotifyWrite)
    (hgap12 : n2.arrival - n1.arrival < debounce)
    (hgap23 : n3.arrival - n2.arrival < debounce) :
    evaluationsBy [n1, n2, n3] now =
      if n3.arrival + debounce ≤ now then [n3.arrival + debounce] else [] := by
  have hd : debounce = 500000000 := by decide
  have e1 : ¬ (n1.arrival + debounce < n2.arrival ∨
      n1.arrival + debounce = n2.arrival ∧ n2.timerFirst = true) := by
    rintro (h | ⟨h, _⟩) <;> omega
  have e2 : ¬ (n2.arrival + debounce < n3.arrival ∨
      n2.arrival + debounce = n3.arrival ∧ n3.timerFirst = true) := by
    rintro (h | ⟨h, _⟩) <;> omega
  simp only [evaluationsBy, runLoop, initialLoop, expire, onEvent, hw1, hw2, hw3, true_or,
    if_true, e1, e2, if_false]
  by_cases hnow : n3.arrival + debounce ≤ now
  · have : n3.arrival + debounce < now ∨ n3.arrival + debounce = now ∧ True := by
      rcases lt_or_eq_of_le hnow with h | h
      · exact Or.inl h
      · exact Or.inr ⟨h, trivial⟩
    simp only [this, hnow, if_true, List.nil_append]
  · have : ¬ (n3.arrival + debounce < now ∨ n3.arrival + debounce = now ∧ True) := by
      rintro (h | ⟨h, _⟩) <;> omega
    simp only [this, hnow, if_false]

/-- Writes at 0ms, 100ms and 200ms: one evaluation, at 700ms, seen from 800ms. -/
theorem three_writes_one_evaluation_witness :
    evaluationsBy [⟨0, fsnotifyWrite, false⟩, ⟨100 * Millisecond, fsnotifyWrite, false⟩,
      ⟨200 * Millisecond, fsnotifyWrite, true⟩] (800 * Millisecond) =
      if 200 * Millisecond + debounce ≤ 800 * Millisecond then [200 * Millisecond + debounce]
      else [] :=
  three_writes_one_evaluation ⟨0, fsnotifyWrite, false⟩ ⟨100 * Millisecond, fsnotifyWrite, false⟩
    ⟨200 * Millisecond, fsnotifyWrite, true⟩ (800 * Millisecond) (by decide) (by decide)
    (by decide) (by decide) (by decide)

/-! ## Properties of the file watcher -/

theorem sha256Hex_ne_empty (lib : Lib) (bytes : String) : lib.sha256Hex bytes ≠ "" := by
  intro h
  have hlen := lib.sha256Hex_length bytes
  rw [h] at hlen
  simp at hlen

/-- C7, as stated, fails, whatever SHA-256 is. When both reads of `StartFileWatcher`
fail the stored snapshot is the empty hash with the empty content; an evaluation that
then finds the file with exactly the stored content (no bytes) computes a hash that is
not the empty string, dispatches an alert and replaces the stored hash. -/
theorem noop_touch_after_failed_startup_alerts :
    ¬ ∃ lib : Lib, ∀ (fl : Truncations) (ord : KeyOrder) (cfg : AppConfig) (filePath : String)
      (snap : FileSnapshot), Reachable lib fl ord cfg filePath snap →
      ∀ ev : Evaluation, ev.hashRead = some snap.lastFileContent →
        ev.contentRead = some snap.lastFileContent →
        handleFileChange lib fl ord cfg filePath snap ev = (snap, []) := by
  rintro ⟨lib, h⟩
  have hstart := h quotientTruncations listedOrder Config "user.yml" _
    (Reachable.start none none) ⟨some "", some "", initialUserStore, 0, 0⟩ rfl rfl
  simp [handleFileChange, StartFileWatcher, getFileHash, sha256Hex_ne_empty] at hstart

/-- A snapshot whose hash is the SHA-256 of its content is left alone, and no message
is sent, by an evaluation that finds the stored content in the file. -/
theorem handleFileChange_same_bytes (lib : Lib) (fl : Truncations) (ord : KeyOrder)
    (cfg : AppConfig) (filePath : String) (snap : FileSnapshot) (ev : Evaluation)
    (hsnap : snap.lastFileHash = lib.sha256Hex snap.lastFileContent)
    (hbytes : ev.hashRead = some snap.lastFileContent) :
    handleFileChange lib fl ord cfg filePath snap ev = (snap, []) := by
  simp [handleFileChange, getFileHash, hbytes, hsnap]

/-- The snapshot `StartFileWatcher` stores when both of its reads return the same
bytes has the hash of its content. -/
theorem StartFileWatcher_hash_of_content (lib : Lib) (bytes : String) (addOk : Bool) :
    (StartFileWatcher lib true (some bytes) (some bytes) addOk).1.lastFileHash =
      lib.sha256Hex (StartFileWatcher lib true (some bytes) (some bytes) addOk).1.lastFileContent := by
  simp [StartFileWatcher, getFileHash]

/-- An evaluation whose two reads do not return different bytes keeps the stored hash
the hash of the stored content. -/
theorem handleFileChange_keeps_hash_of_content (lib : Lib) (fl : Truncations) (ord : KeyOrder)
    (cfg : AppConfig) (filePath : String) (snap : FileSnapshot) (ev : Evaluation)
    (hsnap : snap.lastFileHash = lib.sha256Hex snap.lastFileContent)
    (hreads : ∀ b c, ev.hashRead = some b → ev.contentRead = some c → b = c) :
    (handleFileChange lib fl ord cfg filePath snap ev).1.lastFileHash =
      lib.sha256Hex (handleFileChange lib fl ord cfg filePath snap ev).1.lastFileContent := by
  unfold handleFileChange getFileHash
  cases hh : ev.hashRead with
  | none => simpa using hsnap
  | some b =>
    simp only [Option.map_some']
    by_cases hsame : lib.sha256Hex b = snap.lastFileHash
    · simpa [hsame] using hsnap
    · cases hc : ev.contentRead with
      | none => simpa [hsame] using hsnap
      | some c =>
        have hbc := hreads b c hh hc
        subst hbc
        simp [hsame]

/-- In every settled snapshot the stored hash is the SHA-256 of the stored content. -/
theorem Settled.hash_of_content (lib : Lib) (fl : Truncations) (ord : KeyOrder)
    (cfg : AppConfig) (filePath : String) (snap : FileSnapshot)
    (hsnap : Settled lib fl ord cfg filePath snap) :
    snap.lastFileHash = lib.sha256Hex snap.lastFileContent := by
  induction hsnap with
  | start bytes => exact StartFileWatcher_hash_of_content lib bytes true
  | evaluate prev ev _ hreads ih =>
    exact handleFileChange_keeps_hash_of_content lib fl ord cfg filePath prev ev ih hreads

/-- C7, amended. For every snapshot reached from a `StartFileWatcher` whose two reads
returned the same bytes, through evaluations none of which read two different contents,
an evaluation in which the file's bytes are identical to the stored content dispatches
no alert and leaves both `lastFileHash` and `lastFileContent` unchanged. -/
theorem handleFileChange_noop_touch (lib : Lib) (fl : Truncations) (ord : KeyOrder)
    (cfg : AppConfig) (filePath : String) (snap : FileSnapshot) (ev : Evaluation)
    (hsnap : Settled lib fl ord cfg filePath snap)
    (hbytes : ev.hashRead = some snap.lastFileContent) :
    handleFileChange lib fl ord cfg filePath snap ev = (snap, []) := by
  exact handleFileChange_same_bytes lib fl ord cfg filePath snap ev
    (Settled.hash_of_content lib fl ord cfg filePath snap hsnap) hbytes

/-- The watcher starts on `a: 1`, evaluates a change to `a: 2` (one alert, snapshot
replaced), and is then touched with `a: 2` still in the file. -/
theorem handleFileChange_noop_touch_witness :
    (handleFileChange sampleLib quotientTruncations listedOrder Config "user.yml"
      (StartFileWatcher sampleLib true (some "a: 1") (some "a: 1") true).1
      ⟨some "a: 2", some "a: 2", initialUserStore, 0, 0⟩).1.lastFileContent = "a: 2" ∧
    (handleFileChange sampleLib quotientTruncations listedOrder Config "user.yml"
      (StartFileWatcher sampleLib true (some "a: 1") (some "a: 1") true).1
      ⟨some "a: 2", some "a: 2", initialUserStore, 0, 0⟩).2.length = 1 ∧
    handleFileChange sampleLib quotientTruncations listedOrder Config "user.yml"
      (handleFileChange sampleLib quotientTruncations listedOrder Config "user.yml"
        (StartFileWatcher sampleLib true (some "a: 1") (some "a: 1") true).1
        ⟨some "a: 2", some "a: 2", initialUserStore, 0, 0⟩).1
      ⟨some "a: 2", some "a: 2", initialUserStore, 0, 0⟩ =
      ((handleFileChange sampleLib quotientTruncations listedOrder Config "user.yml"
        (StartFileWatcher sampleLib true (some "a: 1") (some "a: 1") true).1
        ⟨some "a: 2", some "a: 2", initialUserStore, 0, 0⟩).1, []) :=
  ⟨by decide, by decide,
    handleFileChange_noop_touch sampleLib quotientTruncations listedOrder Config "user.yml"
      (handleFileChange sampleLib quotientTruncations listedOrder Config "user.yml"
        (StartFileWatcher sampleLib true (some "a: 1") (some "a: 1") true).1
        ⟨some "a: 2", some "a: 2", initialUserStore, 0, 0⟩).1
      ⟨some "a: 2", some "a: 2", initialUserStore, 0, 0⟩
      (Settled.evaluate _ _ (Settled.start "a: 1")
        (by intro b c hb hc; cases hb; cases hc; rfl))
      (by decide)⟩

/-- The login line of 2025-01-01 12:00:00.000 handled with a clock far from its
timestamp: the gate rejects it, and the store is updated all the same. -/
theorem HandleLogin_updates_user_unconditionally_witness :
    reLogin "2025-01-01 12:00:00.000 Incoming session request: alice (ID123)"
      = some ("alice", "ID123") ∧
    isRecent Config 9000000000000 0 = false ∧
    (HandleLogin sampleLib Config initialMonitor
      "2025-01-01 12:00:00.000 Incoming session request: alice (ID123)" 0 "user"
      9000000000000 9000000000000 9000000000000).user = ⟨"alice", 9000000000000⟩ :=
  ⟨by decide, by decide,
    (HandleLogin_updates_user_unconditionally sampleLib Config initialMonitor
      "2025-01-01 12:00:00.000 Incoming session request: alice (ID123)" 0 "user"
      9000000000000 9000000000000 9000000000000).1 "alice" "ID123" (by decide)⟩

/-! ## Properties of the tree diff -/

theorem group_appendLine_same (changes : Changes) (parent line : String) :
    group (appendLine changes parent line) parent = group changes parent ++ [line] := by
  induction changes with
  | nil => simp [appendLine, group]
  | cons e rest ih =>
    obtain ⟨p, lines⟩ := e
    by_cases hp : p = parent
    · simp [appendLine, group, hp]
    · simp [appendLine, group, hp, ih]

theorem group_appendLine_other (changes : Changes) (parent line q : String) (hq : q ≠ parent) :
    group (appendLine changes parent line) q = group changes q := by
  induction changes with
  | nil =>
    have : ¬ parent = q := fun h => hq h.symm
    simp [appendLine, group, this]
  | cons e rest ih =>
    obtain ⟨p, lines⟩ := e
    by_cases hp : p = parent
    · have : ¬ parent = q := fun h => hq h.symm
      simp [appendLine, group, hp, this]
    · by_cases hpq : p = q
      · subst hpq
        simp [appendLine, group, hp]
      · simp [appendLine, group, hp, hpq, ih]

theorem Grows.refl (c : Changes) : Grows c c := fun _ => List.prefix_refl _

theorem Grows.trans {a b c : Changes} (hab : Grows a b) (hbc : Grows b c) : Grows a c :=
  fun q => (hab q).trans (hbc q)

theorem grows_appendLine (changes : Changes) (parent line : String) :
    Grows changes (appendLine changes parent line) := by
  intro q
  by_cases hq : q = parent
  · subst hq
    rw [group_appendLine_same]
    exact List.prefix_append _ _
  · rw [group_appendLine_other _ _ _ _ hq]

theorem grows_visitKey (recurse : Changes → String → Doc → Doc → Changes)
    (hrec : ∀ c p o n, Grows c (recurse c p o n)) (parentKey : String) (oldData newData : Doc)
    (changes : Changes) (key : String) :
    Grows changes (visitKey recurse parentKey oldData newData changes key) := by
  unfold visitKey
  split
  · split
    · exact hrec _ _ _ _
    · split_ifs
      · exact (grows_appendLine _ _ _).trans (grows_appendLine _ _ _)
      · exact Grows.refl _
  · exact grows_appendLine _ _ _
  · exact grows_appendLine _ _ _
  · exact Grows.refl _

theorem grows_foldl (visit : Changes → String → Changes) (hvisit : ∀ c k, Grows c (visit c k))
    (keys : List String) : ∀ changes, Grows changes (keys.foldl visit changes) := by
  induction keys with
  | nil => intro changes; exact Grows.refl _
  | cons k rest ih =>
    intro changes
    simp only [List.foldl_cons]
    exact (hvisit changes k).trans (ih _)

theorem grows_findDifferences (ord : KeyOrder) (fuel : Nat) :
    ∀ changes parentKey oldData newData,
      Grows changes (findDifferences ord fuel changes parentKey oldData newData) := by
  induction fuel with
  | zero => intro changes _ _ _; exact Grows.refl _
  | succ fuel ih =>
    intro changes parentKey oldData newData
    simp only [findDifferences]
    exact grows_foldl _ (fun c k => grows_visitKey _ ih parentKey oldData newData c k) _ _

/-- Lines that the visit of one key leaves in a group stay there, in place, until the
loop over the keys ends. -/
theorem infix_foldl_of_mem (visit : Changes → String → Changes)
    (hvisit : ∀ c k, Grows c (visit c k)) (keys : List String) (key : String)
    (hmem : key ∈ keys) (q : String) (lines : List String)
    (hkey : ∀ c, lines <:+: group (visit c key) q) :
    ∀ changes, lines <:+: group (keys.foldl visit changes) q := by
  intro changes
  obtain ⟨before, after, rfl⟩ := List.append_of_mem hmem
  rw [List.foldl_append, List.foldl_cons]
  exact (hkey _).trans ((grows_foldl visit hvisit after _ q).isInfix)

theorem Doc.mem_keys_of_lookup : ∀ (d : Doc) (key : String) (v : Value),
    d.lookup key = some v → key ∈ d.keys
  | .nil, key, v, h => by simp [Doc.lookup] at h
  | .cons k v' rest, key, v, h => by
    simp only [Doc.lookup] at h
    by_cases hk : key = k
    · simp [Doc.keys, hk]
    · simp only [hk, if_false] at h
      simp [Doc.keys, Doc.mem_keys_of_lookup rest key v h]

theorem Doc.depth_le_of_lookup : ∀ (d : Doc) (key : String) (v : Value),
    d.lookup key = some v → v.depth ≤ d.depth
  | .nil, key, v, h => by simp [Doc.lookup] at h
  | .cons k v' rest, key, v, h => by
    simp only [Doc.lookup] at h
    by_cases hk : key = k
    · simp only [hk, if_true, Option.some.injEq] at h
      subst h
      simp [Doc.depth]
    · simp only [hk, if_false] at h
      have := Doc.depth_le_of_lookup rest key v h
      simp only [Doc.depth]
      omega

theorem mem_allKeys_of_lookup (oldData newData : Doc) (key : String) (v : Value)
    (h : oldData.lookup key = some v) : key ∈ allKeys oldData newData := by
  unfold allKeys
  rw [List.mem_dedup, List.mem_append]
  exact Or.inl (Doc.mem_keys_of_lookup _ _ _ h)

theorem visitKey_flat (recurse : Changes → String → Doc → Doc → Changes) (parentKey : String)
    (oldData newData : Doc) (changes : Changes) (key : String) (oldVal newVal : Value)
    (hold : oldData.lookup key = some oldVal) (hnew : newData.lookup key = some newVal)
    (hflat : NotBothMaps oldVal newVal) (hrender : oldVal.render ≠ newVal.render) :
    visitKey recurse parentKey oldData newData changes key =
      appendLine (appendLine changes parentKey (removedLine key oldVal)) parentKey
        (addedLine key newVal) := by
  unfold visitKey
  rw [hold, hnew]
  cases oldVal with
  | scalar a => simp [hrender]
  | map om =>
    cases newVal with
    | scalar b => simp [hrender]
    | map nm => exact absurd ⟨rfl, rfl⟩ (hflat om nm)

theorem visitKey_nested (recurse : Changes → String → Doc → Doc → Changes) (parentKey : String)
    (oldData newData : Doc) (changes : Changes) (key : String) (oldMap newMap : Doc)
    (hold : oldData.lookup key = some (.map oldMap))
    (hnew : newData.lookup key = some (.map newMap)) :
    visitKey recurse parentKey oldData newData changes key =
      recurse changes (newParent parentKey key) oldMap newMap := by
  unfold visitKey
  rw [hold, hnew]

/-- The lines emitted for one key of a level stay, in place, in the group written by
the call of `findDifferences` on that level. -/
theorem infix_findDifferences_of_visit (ord : KeyOrder) (fuel : Nat) (parentKey : String)
    (oldData newData : Doc) (key : String) (hmem : key ∈ allKeys oldData newData)
    (q : String) (lines : List String)
    (hkey : ∀ c, lines <:+:
      group (visitKey (findDifferences ord fuel) parentKey oldData newData c key) q) :
    ∀ changes, lines <:+:
      group (findDifferences ord (fuel + 1) changes parentKey oldData newData) q := by
  intro changes
  simp only [findDifferences]
  exact infix_foldl_of_mem _
    (fun c k => grows_visitKey _ (grows_findDifferences ord fuel) parentKey oldData newData c k)
    _ key ((ord.perm parentKey _).mem_iff.mpr hmem) q lines hkey changes

/-- A flat replacement at the end of a chain of nested maps is written, removed line
first, to the group of the path the chain leads to. -/
theorem infix_findDifferences_of_descend (ord : KeyOrder) (key : String) (oldVal newVal : Value)
    (hflat : NotBothMaps oldVal newVal) (hrender : oldVal.render ≠ newVal.render) :
    ∀ (ks : List String) (fuel : Nat) (parentKey : String) (oldData newData oldMap newMap : Doc),
      oldData.depth < fuel →
      oldData.descend ks = some oldMap → newData.descend ks = some newMap →
      oldMap.lookup key = some oldVal → newMap.lookup key = some newVal →
      ∀ changes, [removedLine key oldVal, addedLine key newVal] <:+:
        group (findDifferences ord fuel changes parentKey oldData newData)
          (ks.foldl newParent parentKey) := by
  intro ks
  induction ks with
  | nil =>
    intro fuel parentKey oldData newData oldMap newMap hfuel hold hnew hkold hknew
    simp only [Doc.descend, Option.some.injEq] at hold hnew
    subst hold hnew
    obtain ⟨fuel, rfl⟩ : ∃ f, fuel = f + 1 := ⟨fuel - 1, by omega⟩
    apply infix_findDifferences_of_visit ord fuel parentKey oldData newData key
      (mem_allKeys_of_lookup _ _ _ _ hkold)
    intro c
    rw [visitKey_flat _ _ _ _ _ _ _ _ hkold hknew hflat hrender, List.foldl_nil,
      group_appendLine_same, group_appendLine_same, List.append_assoc]
    exact List.infix_append' _ _ []
  | cons k rest ih =>
    intro fuel parentKey oldData newData oldMap newMap hfuel hold hnew hkold hknew
    obtain ⟨fuel, rfl⟩ : ∃ f, fuel = f + 1 := ⟨fuel - 1, by omega⟩
    simp only [Doc.descend] at hold hnew
    cases hlo : oldData.lookup k with
    | none => simp [hlo] at hold
    | some ov =>
      cases ov with
      | scalar a => simp [hlo] at hold
      | map om =>
        cases hln : newData.lookup k with
        | none => simp [hln] at hnew
        | some nv =>
          cases nv with
          | scalar b => simp [hln] at hnew
          | map nm =>
            simp only [hlo] at hold
            simp only [hln] at hnew
            have hdepth : om.depth < fuel := by
              have := Doc.depth_le_of_lookup oldData k _ hlo
              simp only [Value.depth] at this
              omega
            apply infix_findDifferences_of_visit ord fuel parentKey oldData newData k
              (mem_allKeys_of_lookup _ _ _ _ hlo)
            intro c
            rw [visitKey_nested _ _ _ _ _ _ _ _ hlo hln, List.foldl_cons]
            exact ih fuel (newParent parentKey k) om nm oldMap newMap hdepth hold hnew
              hkold hknew c

/-- The bound on the depth of calls does not show in the result once it exceeds the
depth of the old document: no call of `findDifferences` is cut short. -/
theorem findDifferences_fuel_irrelevant (ord : KeyOrder) :
    ∀ (fuel1 fuel2 : Nat) (changes : Changes) (parentKey : String) (oldData newData : Doc),
      oldData.depth < fuel1 → oldData.depth < fuel2 →
      findDifferences ord fuel1 changes parentKey oldData newData =
        findDifferences ord fuel2 changes parentKey oldData newData := by
  intro fuel1
  induction fuel1 with
  | zero => intro _ _ _ _ _ h; omega
  | succ f1 ih =>
    intro fuel2 changes parentKey oldData newData h1 h2
    obtain ⟨f2, rfl⟩ : ∃ f, fuel2 = f + 1 := ⟨fuel2 - 1, by omega⟩
    simp only [findDifferences]
    have hvisit : visitKey (findDifferences ord f1) parentKey oldData newData =
        visitKey (findDifferences ord f2) parentKey oldData newData := by
      funext c k
      cases hlo : oldData.lookup k with
      | none => cases hln : newData.lookup k <;> simp only [visitKey, hlo, hln]
      | some ov =>
        cases hln : newData.lookup k with
        | none => simp only [visitKey, hlo, hln]
        | some nv =>
          cases ov with
          | scalar a => simp only [visitKey, hlo, hln]
          | map om =>
            cases nv with
            | scalar b => simp only [visitKey, hlo, hln]
            | map nm =>
              rw [visitKey_nested _ _ _ _ _ _ _ _ hlo hln, visitKey_nested _ _ _ _ _ _ _ _ hlo hln]
              have := Doc.depth_le_of_lookup oldData k _ hlo
              simp only [Value.depth] at this
              exact ih f2 c _ om nm (by omega) (by omega)
    rw [hvisit]

theorem String.append_ne_empty_left (a b : String) (ha : a ≠ "") : a ++ b ≠ "" := by
  intro h
  apply ha
  have hd := congrArg String.data h
  simp only [String.data_append] at hd
  have : a.data = [] := (List.append_eq_nil.mp hd).1
  exact String.ext this

theorem newParent_ne_empty (parentKey key : String) (hp : parentKey ≠ "") :
    newParent parentKey key ≠ "" := by
  unfold newParent
  simp only [hp, ne_eq, not_false_eq_true, if_true]
  rw [String.append_assoc]
  exact String.append_ne_empty_left _ _ hp

/-- Below a non-empty path the code's path is the dot-joined one. -/
theorem foldl_newParent_eq_go (ks : List String) :
    ∀ acc : String, acc ≠ "" → ks.foldl newParent acc = String.intercalate.go acc "." ks := by
  induction ks with
  | nil => intro acc _; simp [String.intercalate.go]
  | cons k rest ih =>
    intro acc hacc
    simp only [List.foldl_cons, String.intercalate.go]
    have hstep : newParent acc k = acc ++ "." ++ k := by
      unfold newParent
      simp [hacc]
    rw [hstep]
    apply ih
    rw [← hstep]
    exact newParent_ne_empty acc k hacc

theorem foldl_newParent_eq_intercalate (k1 : String) (ks : List String) (hk1 : k1 ≠ "") :
    (k1 :: ks).foldl newParent "" = ".".intercalate (k1 :: ks) := by
  have h0 : newParent "" k1 = k1 := by simp [newParent]
  simp only [List.foldl_cons, h0, String.intercalate]
  exact foldl_newParent_eq_go ks k1 hk1

theorem foldl_newParent_ne_empty (ks : List String) :
    ∀ acc : String, acc ≠ "" → ks.foldl newParent acc ≠ "" := by
  induction ks with
  | nil => intro acc h; simpa using h
  | cons k rest ih =>
    intro acc hacc
    simp only [List.foldl_cons]
    exact ih _ (newParent_ne_empty acc k hacc)

/-- A call of `findDifferences` under a non-empty path writes nothing to the root group. -/
theorem findDifferences_root_untouched (ord : KeyOrder) (fuel : Nat) :
    ∀ (changes : Changes) (parentKey : String) (oldData newData : Doc), parentKey ≠ "" →
      group (findDifferences ord fuel changes parentKey oldData newData) "" = group changes "" := by
  induction fuel with
  | zero => intro changes _ _ _ _; rfl
  | succ fuel ih =>
    intro changes parentKey oldData newData hp
    simp only [findDifferences]
    have hne : ("" : String) ≠ parentKey := fun h => hp h.symm
    have hvisit : ∀ c k, group (visitKey (findDifferences ord fuel) parentKey oldData newData c k) ""
        = group c "" := by
      intro c k
      unfold visitKey
      split
      · split
        · exact ih _ _ _ _ (newParent_ne_empty parentKey k hp)
        · split_ifs
          · rw [group_appendLine_other _ _ _ _ hne, group_appendLine_other _ _ _ _ hne]
          · rfl
      · exact group_appendLine_other _ _ _ _ hne
      · exact group_appendLine_other _ _ _ _ hne
      · rfl
    generalize ord.visit parentKey (allKeys oldData newData) = keys
    induction keys generalizing changes with
    | nil => rfl
    | cons k rest ihk =>
      simp only [List.foldl_cons]
      rw [ihk, hvisit]

theorem writeAll_append (l1 l2 : List String) :
    writeAll (l1 ++ l2) = writeAll l1 ++ writeAll l2 := by
  induction l1 with
  | nil => simp [writeAll]
  | cons x rest ih => simp [writeAll, ih, String.append_assoc]

theorem mem_insertByKey {α : Type} (x y : String × α) (l : List (String × α)) :
    y ∈ insertByKey x l ↔ y = x ∨ y ∈ l := by
  induction l with
  | nil => simp [insertByKey]
  | cons z rest ih =>
    unfold insertByKey
    split_ifs
    · simp only [List.mem_cons, ih]
      tauto
    · simp only [List.mem_cons]

theorem mem_sortByKey {α : Type} (y : String × α) (l : List (String × α)) :
    y ∈ sortByKey l ↔ y ∈ l := by
  induction l with
  | nil => simp [sortByKey]
  | cons x rest ih =>
    have : sortByKey (x :: rest) = insertByKey x (sortByKey rest) := rfl
    rw [this, mem_insertByKey, ih, List.mem_cons]

theorem mem_sortStrings (x : String) (l : List String) : x ∈ sortStrings l ↔ x ∈ l := by
  unfold sortStrings
  simp only [List.mem_map, mem_sortByKey]
  constructor
  · rintro ⟨⟨a, u⟩, ⟨b, hb, hab⟩, rfl⟩
    simp only [Prod.mk.injEq] at hab
    rw [← hab.1]
    exact hb
  · intro hx
    exact ⟨(x, ()), ⟨x, hx, rfl⟩, rfl⟩

theorem mem_parents_of_group_ne_nil (changes : Changes) (q : String)
    (h : group changes q ≠ []) : q ∈ changes.map Prod.fst := by
  induction changes with
  | nil => simp [group] at h
  | cons e rest ih =>
    obtain ⟨p, lines⟩ := e
    by_cases hp : p = q
    · simp [hp]
    · simp only [group, hp, if_false] at h
      simp [ih h]

/-- A parent with lines has its group rendered, whole, in the text. -/
theorem renderChanges_split (changes : Changes) (q : String) (h : group changes q ≠ []) :
    ∃ pre post, renderChanges changes = pre ++ renderGroup changes q ++ post := by
  have hmem : q ∈ sortStrings (changes.map Prod.fst) :=
    (mem_sortStrings _ _).mpr (mem_parents_of_group_ne_nil changes q h)
  obtain ⟨before, after, hsplit⟩ := List.append_of_mem hmem
  refine ⟨writeAll (before.map (renderGroup changes)),
    writeAll (after.map (renderGroup changes)), ?_⟩
  unfold renderChanges
  rw [hsplit, List.map_append, List.map_cons, writeAll_append, writeAll, String.append_assoc]

/-! ### C3: the order of the keys shows in the text -/

/-- C3. The text of the diff depends on the order in which the keys are visited. For
`a: 1, b: 2` against `a: 1, b: 3` only `b` emits lines and both orders write the one
root group `- b: 2`, `+ b: 3`; for `a: 1, b: 2` against `a: 2, b: 3` both keys emit lines
into the root group, and visiting `a` before `b` or `b` before `a` writes them in that
order. -/
theorem diffText_depends_on_key_order :
    diffText listedOrder docA1B2 docA1B3 = "- b: 2\n+ b: 3\n" ∧
    diffText reverseOrder docA1B2 docA1B3 = "- b: 2\n+ b: 3\n" ∧
    diffText listedOrder docA1B2 docA2B3 = "- a: 1\n+ a: 2\n- b: 2\n+ b: 3\n" ∧
    diffText reverseOrder docA1B2 docA2B3 = "- b: 2\n+ b: 3\n- a: 1\n+ a: 2\n" ∧
    diffText listedOrder docA1B2 docA2B3 ≠ diffText reverseOrder docA1B2 docA2B3 := by
  decide

/-! ### C5: a type change is a flat replacement -/

/-- C5, as stated, fails. The key `x` holds a scalar in one document and a nested map
in the other, and the diff is empty, whatever the order of the keys: the scalar is the
string `map[y:1]`, which is also what `%v` prints for the map, and `findDifferences`
compares what is printed. -/
theorem type_change_with_equal_text_is_silent :
    docXText.lookup "x" = some (.scalar "map[y:1]") ∧
    docXMapY1.lookup "x" = some (.map (.cons "y" (.scalar "1") .nil)) ∧
    (∀ ord : KeyOrder, diffGroups ord docXText docXMapY1 = []) ∧
    (∀ ord : KeyOrder, diffText ord docXText docXMapY1 = "") := by
  have hkeys : allKeys docXText docXMapY1 = ["x"] := by decide
  have hgroups : ∀ ord : KeyOrder, diffGroups ord docXText docXMapY1 = [] := by
    intro ord
    have hvisit : ord.visit "" ["x"] = ["x"] := List.perm_singleton.mp (ord.perm "" ["x"])
    have hdepth : docXText.depth = 0 := by decide
    unfold diffGroups
    rw [hdepth]
    simp only [findDifferences, hkeys, hvisit, List.foldl_cons, List.foldl_nil]
    decide
  refine ⟨rfl, rfl, hgroups, ?_⟩
  intro ord
  unfold diffText
  rw [hgroups ord]
  decide

/-- C5, amended. For a key present in both documents at the end of a chain of nested
maps, holding a scalar on one side and a nested map on the other, whose two values
print differently: the group of the current path holds the removed line followed by
the added line; the visit of the key is exactly the two appends to that group, so it
makes no recursive call and leaves every other group, that of the key's own path
included, as it was. -/
theorem type_change_is_flat_replacement (ord : KeyOrder) (oldData newData : Doc)
    (ks : List String) (oldMap newMap : Doc) (key : String) (oldVal newVal : Value)
    (hold : oldData.descend ks = some oldMap) (hnew : newData.descend ks = some newMap)
    (hkold : oldMap.lookup key = some oldVal) (hknew : newMap.lookup key = some newVal)
    (htype : (∃ s m, oldVal = .scalar s ∧ newVal = .map m) ∨
      (∃ m s, oldVal = .map m ∧ newVal = .scalar s))
    (hrender : oldVal.render ≠ newVal.render) :
    [removedLine key oldVal, addedLine key newVal] <:+:
      group (diffGroups ord oldData newData) (ks.foldl newParent "") ∧
    (∀ recurse parentKey changes,
      visitKey recurse parentKey oldMap newMap changes key =
        appendLine (appendLine changes parentKey (removedLine key oldVal)) parentKey
          (addedLine key newVal)) ∧
    (∀ recurse parentKey changes q, q ≠ parentKey →
      group (visitKey recurse parentKey oldMap newMap changes key) q = group changes q) := by
  have hflat : NotBothMaps oldVal newVal := by
    intro om nm h
    rcases htype with ⟨s, m, h1, _⟩ | ⟨m, s, _, h2⟩
    · rw [h1] at h
      exact Value.noConfusion h.1
    · rw [h2] at h
      exact Value.noConfusion h.2
  refine ⟨?_, ?_, ?_⟩
  · exact infix_findDifferences_of_descend ord key oldVal newVal hflat hrender ks
      (oldData.depth + 1) "" oldData newData oldMap newMap (Nat.lt_succ_self _) hold hnew
      hkold hknew []
  · intro recurse parentKey changes
    exact visitKey_flat recurse parentKey oldMap newMap changes key oldVal newVal hkold hknew
      hflat hrender
  · intro recurse parentKey changes q hq
    rw [visitKey_flat recurse parentKey oldMap newMap changes key oldVal newVal hkold hknew
      hflat hrender, group_appendLine_other _ _ _ _ hq, group_appendLine_other _ _ _ _ hq]

/-- The pair `x: 1` against `x: {y: 1}` at the root (the empty chain). -/
theorem type_change_is_flat_replacement_witness :
    diffText listedOrder docX1 docXMapY1 = "- x: 1\n+ x: map[y:1]\n" ∧
    [removedLine "x" (.scalar "1"), addedLine "x" (.map (.cons "y" (.scalar "1") .nil))] <:+:
      group (diffGroups listedOrder docX1 docXMapY1) "" :=
  ⟨by decide,
    (type_change_is_flat_replacement listedOrder docX1 docXMapY1 [] docX1 docXMapY1 "x"
      (.scalar "1") (.map (.cons "y" (.scalar "1") .nil)) rfl rfl rfl rfl
      (Or.inl ⟨"1", _, rfl, rfl⟩) (by decide)).1⟩

/-! ### C6: matched nested maps are recursed into -/

/-- C6. The dot-joined path is lost under an empty top-level key. Along the chain of
keys `""`, `a` both documents hold nested maps and the leaf `y` differs, but the group
of the dot-joined path `.a` is empty and the lines are in the group `a`:
`findDifferences` takes `parentKey == ""` for the root, so below the key `""` the path
starts over. One level down the same chain keeps the empty key in the path: under `x`
the lines are in the group `x..a`. -/
theorem nested_change_under_empty_key_loses_prefix :
    docEmptyKeyY1.descend ["", "a"] = some (.cons "y" (.scalar "1") .nil) ∧
    docEmptyKeyY2.descend ["", "a"] = some (.cons "y" (.scalar "2") .nil) ∧
    ".".intercalate ["", "a"] = ".a" ∧
    group (diffGroups listedOrder docEmptyKeyY1 docEmptyKeyY2) (".".intercalate ["", "a"]) = [] ∧
    group (diffGroups listedOrder docEmptyKeyY1 docEmptyKeyY2) "a" = ["- y: 1\n", "+ y: 2\n"] ∧
    diffText listedOrder docEmptyKeyY1 docEmptyKeyY2 = "a:\n- y: 1\n+ y: 2\n" ∧
    ".".intercalate ["x", "", "a"] = "x..a" ∧
    diffText listedOrder docInnerEmptyKeyY1 docInnerEmptyKeyY2 = "x..a:\n- y: 1\n+ y: 2\n" :=
  ⟨rfl, rfl, by decide, by decide, by decide, by decide, by decide, by decide⟩

/-- Away from the empty top-level key, matched nested maps are recursed into as the
dot-joined path says. For every chain of keys `k1..kn` (`n ≥ 1`, `k1` not the empty string)
whose values are nested maps in both documents and every leaf key under it whose scalar
values print differently under `%v`: the group of the dot-joined path `k1.k2...kn` holds
the removed line followed by the added line; the text renders that group as the header
`k1.k2...kn:` followed by its lines in order; and the visit of `k1` at the root adds
nothing to the root group. -/
theorem nested_change_under_dotted_path (ord : KeyOrder) (oldData newData : Doc)
    (k1 : String) (ks : List String) (oldMap newMap : Doc) (leaf a b : String)
    (hk1 : k1 ≠ "")
    (hold : oldData.descend (k1 :: ks) = some oldMap)
    (hnew : newData.descend (k1 :: ks) = some newMap)
    (hkold : oldMap.lookup leaf = some (.scalar a))
    (hknew : newMap.lookup leaf = some (.scalar b))
    (hab : a ≠ b) :
    (∃ before after,
      group (diffGroups ord oldData newData) (".".intercalate (k1 :: ks)) =
        before ++ [removedLine leaf (.scalar a), addedLine leaf (.scalar b)] ++ after ∧
      ∃ pre post, diffText ord oldData newData =
        pre ++ (".".intercalate (k1 :: ks) ++ ":\n" ++ writeAll before ++
          removedLine leaf (.scalar a) ++ addedLine leaf (.scalar b) ++ writeAll after) ++ post) ∧
    (∀ fuel changes,
      group (visitKey (findDifferences ord fuel) "" oldData newData changes k1) ""
        = group changes "") := by
  have hflat : NotBothMaps (.scalar a) (.scalar b) := by
    intro om nm h
    exact Value.noConfusion h.1
  have hrender : (Value.scalar a).render ≠ (Value.scalar b).render := by
    simpa [Value.render] using hab
  have hinfix := infix_findDifferences_of_descend ord leaf (.scalar a) (.scalar b) hflat hrender
    (k1 :: ks) (oldData.depth + 1) "" oldData newData oldMap newMap (Nat.lt_succ_self _)
    hold hnew hkold hknew []
  rw [foldl_newParent_eq_intercalate k1 ks hk1] at hinfix
  have hpath : ".".intercalate (k1 :: ks) ≠ "" := by
    rw [← foldl_newParent_eq_intercalate k1 ks hk1, List.foldl_cons]
    exact foldl_newParent_ne_empty ks _ (by simpa [newParent] using hk1)
  constructor
  · obtain ⟨before, after, hsplit⟩ := hinfix
    refine ⟨before, after, hsplit.symm, ?_⟩
    have hne : group (diffGroups ord oldData newData) (".".intercalate (k1 :: ks)) ≠ [] := by
      unfold diffGroups
      rw [← hsplit]
      simp
    obtain ⟨pre, post, hrendered⟩ := renderChanges_split _ _ hne
    refine ⟨pre, post, ?_⟩
    unfold diffText
    rw [hrendered]
    unfold renderGroup
    unfold diffGroups
    rw [← hsplit]
    simp only [hpath, ne_eq, not_false_eq_true, if_true, writeAll_append, writeAll,
      String.append_assoc, String.append_empty]
  · intro fuel changes
    simp only [Doc.descend] at hold hnew
    cases hlo : oldData.lookup k1 with
    | none => simp [hlo] at hold
    | some ov =>
      cases ov with
      | scalar s => simp [hlo] at hold
      | map om =>
        cases hln : newData.lookup k1 with
        | none => simp [hln] at hnew
        | some nv =>
          cases nv with
          | scalar s => simp [hln] at hnew
          | map nm =>
            rw [visitKey_nested _ _ _ _ _ _ _ _ hlo hln]
            exact findDifferences_root_untouched ord _ _ _ _ _ (by simpa [newParent] using hk1)

/-- The pair `x: {y: 1}` against `x: {y: 2}`: the single group `x`. -/
theorem nested_change_under_dotted_path_witness :
    diffText listedOrder docXMapY1 docXMapY2 = "x:\n- y: 1\n+ y: 2\n" ∧
    diffGroups listedOrder docXMapY1 docXMapY2 = [("x", ["- y: 1\n", "+ y: 2\n"])] ∧
    ∀ fuel changes,
      group (visitKey (findDifferences listedOrder fuel) "" docXMapY1 docXMapY2
        changes "x") "" = group changes "" :=
  ⟨by decide, by decide,
    (nested_change_under_dotted_path listedOrder docXMapY1 docXMapY2 "x" []
      (.cons "y" (.scalar "1") .nil) (.cons "y" (.scalar "2") .nil) "y" "1" "2"
      (by decide) rfl rfl rfl rfl (by decide)).2⟩

end AnydeskTracking
